import Mathlib

/-!
Verification of the libfdisk table layer (src/libs/util-linux/libfdisk/table.c):
the partition-table container, the free-space synthesizer, the table differ and
the apply operation, shallowly embedded in Lean.

Machine integers: fdisk_sector_t is uint64_t; arithmetic that can wrap is done
modulo U64 = 2^64.  Partition records, the disk context and its collaborator
capabilities (alignment, label backend) are modelled as Lean structures; the
parts of the repository that table.c calls but that are not shipped in the
sources (partition.c accessors, list.h, alignment helpers) are modelled from
the specification and marked as such in their doc comments.
-/

/-- Wrap-around modulus of the 64-bit sector type fdisk_sector_t (uint64_t). -/
def U64 : Nat := 2 ^ 64

/-- 64-bit unsigned addition: a + b computed in uint64_t. -/
def addW (a b : Nat) : Nat := (a + b) % U64

/-- 64-bit unsigned subtraction: a - b computed in uint64_t (wraps on underflow). -/
def subW (a b : Nat) : Nat := (a % U64 + (U64 - b % U64)) % U64

/-- Modelled from the spec: the partition record (struct fdisk_partition from
the missing partition.c/fdiskP.h).  Optional attributes (number, start, size)
carry a distinct presence flag; the spec stresses that the presence flag for
the partition number is distinct from the number being zero. -/
structure FdiskPartition where
  partno : Nat
  hasPartno : Bool
  start : Nat
  hasStart : Bool
  size : Nat
  hasSize : Bool
  used : Bool
  wholedisk : Bool
  freespace : Bool
  nested : Bool
  container : Bool
  parent_partno : Option Nat
  start_follow_default : Bool
deriving DecidableEq

/-- Modelled from the spec: has-partno predicate of the missing partition.c. -/
def fdisk_partition_has_partno (pa : FdiskPartition) : Bool := pa.hasPartno

/-- Modelled from the spec: has-start predicate of the missing partition.c. -/
def fdisk_partition_has_start (pa : FdiskPartition) : Bool := pa.hasStart

/-- Modelled from the spec: has-end is derived, it holds when both the start
and the size of the record are known. -/
def fdisk_partition_has_end (pa : FdiskPartition) : Bool := pa.hasStart && pa.hasSize

/-- Modelled from the spec: start accessor of the missing partition.c. -/
def fdisk_partition_get_start (pa : FdiskPartition) : Nat := pa.start

/-- Modelled from the spec: size accessor of the missing partition.c. -/
def fdisk_partition_get_size (pa : FdiskPartition) : Nat := pa.size

/-- Modelled from the spec: end = start + size - 1 (uint64_t arithmetic). -/
def fdisk_partition_get_end (pa : FdiskPartition) : Nat :=
  subW (addW pa.start pa.size) 1

/-- Modelled from the spec: nested (logical) flag of the missing partition.c. -/
def fdisk_partition_is_nested (pa : FdiskPartition) : Bool := pa.nested

/-- Modelled from the spec: container (extended) flag of the missing partition.c. -/
def fdisk_partition_is_container (pa : FdiskPartition) : Bool := pa.container

/-- Modelled from the spec: whole-disk flag of the missing partition.c. -/
def fdisk_partition_is_wholedisk (pa : FdiskPartition) : Bool := pa.wholedisk

/-- Modelled from the spec: used flag of the missing partition.c. -/
def fdisk_partition_is_used (pa : FdiskPartition) : Bool := pa.used

/-- Modelled from the spec: the disk context capability (struct fdisk_context)
as consumed by table.c -- geometry numbers, the opaque alignment operations
fdisk_align_lba_in_range / fdisk_align_lba(FDISK_ALIGN_UP), and the label
backend's partition enumeration. -/
structure FdiskContext where
  sector_size : Nat
  grain : Nat
  first_lba : Nat
  last_lba : Nat
  align_lba_in_range : Nat → Nat → Nat → Nat
  align_lba_up : Nat → Nat
  label_parts : List FdiskPartition

/-- The sector-unit grain expression of fdisk_get_freespaces and
check_container_freespace:
grain = cxt->grain > cxt->sector_size ? cxt->grain / cxt->sector_size : 1. -/
def grain_expr (cxt : FdiskContext) : Nat :=
  if cxt.grain > cxt.sector_size then cxt.grain / cxt.sector_size else 1

/-- new_freespace from table.c: allocates a freespace record for the gap
[start, end]; one-sector gaps (start == end) and gaps whose aligned size is
zero produce no record and succeed.  The ENOMEM path of the C code (allocation
failure) is not modelled: allocation always succeeds here. -/
def new_freespace (cxt : FdiskContext) (start end_ : Nat)
    (parent : Option FdiskPartition) : Int × Option FdiskPartition :=
  if start = end_ then (0, none)
  else
    let aligned_start := cxt.align_lba_in_range start start end_ % U64
    let size := addW (subW end_ aligned_start) 1
    if size = 0 then (0, none)
    else
      (0, some { partno := 0, hasPartno := false,
                 start := aligned_start, hasStart := true,
                 size := size, hasSize := true,
                 used := false, wholedisk := false, freespace := true,
                 nested := false, container := false,
                 parent_partno := (parent.map (fun par => par.partno)),
                 start_follow_default := false })

/-- get_partition_by_partno from table.c: first record whose stored partno
field equals the query; the has-partno flag is not consulted. -/
def fdisk_table_get_partition_by_partno
    (tb : List FdiskPartition) (partno : Nat) : Option FdiskPartition :=
  tb.find? (fun pa => pa.partno == partno)

/-- Modelled from the spec: stable comparator-driven sort (list_sort of the
missing list.h used by fdisk_table_sort_partitions) -- a record is placed
before the first later record that does not compare strictly below it, so
records that compare equal keep their original relative order. -/
def insertSorted {α : Type} (cmp : α → α → Int) (x : α) : List α → List α
  | [] => [x]
  | y :: ys => if cmp x y ≤ 0 then x :: y :: ys else y :: insertSorted cmp x ys

/-- Modelled from the spec: stable sort of a whole list by a comparator. -/
def list_sort {α : Type} (cmp : α → α → Int) : List α → List α
  | [] => []
  | x :: xs => insertSorted cmp x (list_sort cmp xs)

/-- Modelled from the spec: fdisk_partition_cmp_start of the missing
partition.c, the by-start-sector comparator; records without a start sort
first. -/
def fdisk_partition_cmp_start (a b : FdiskPartition) : Int :=
  if ¬a.hasStart ∧ ¬b.hasStart then 0
  else if ¬a.hasStart then -1
  else if ¬b.hasStart then 1
  else if a.start < b.start then -1
  else if b.start < a.start then 1
  else 0

/-- fdisk_get_partitions from table.c: enumerate the label backend's
partitions and keep the used ones.  The backend enumeration (fdisk_get_partition
of the missing label code) is the label_parts capability of the context. -/
def fdisk_get_partitions (cxt : FdiskContext) : List FdiskPartition :=
  cxt.label_parts.filter fdisk_partition_is_used

/-- The best-predecessor scan of table_add_freespace: the member with the
highest known end sector that is still below the new record's start, position
tracked by index. -/
def bestScan (paStart : Nat) :
    List (Nat × FdiskPartition) → Option (Nat × FdiskPartition) →
    Option (Nat × FdiskPartition)
  | [], best => best
  | (i, x) :: rest, best =>
    if ¬fdisk_partition_has_end x then bestScan paStart rest best
    else
      let the_end := fdisk_partition_get_end x
      let best_end := match best with
        | some (_, b) => fdisk_partition_get_end b
        | none => 0
      if the_end < paStart ∧ (best.isNone ∨ best_end < the_end) then
        bestScan paStart rest (some (i, x))
      else bestScan paStart rest best

/-- The first loop of table_add_freespace: locate the real parent, the first
numbered member carrying the parent's partition number, with its position. -/
def findParentIdx (pn : Nat) :
    List (Nat × FdiskPartition) → Option (Nat × FdiskPartition)
  | [] => none
  | (i, x) :: rest =>
    if ¬fdisk_partition_has_partno x then findParentIdx pn rest
    else if x.partno = pn then some (i, x)
    else findParentIdx pn rest

/-- table_insert_partition from table.c, on the membership sequence: insert
after the given position, or at the head when no position is given. -/
def insertAt (tb : List FdiskPartition) (pos : Option Nat)
    (pa : FdiskPartition) : List FdiskPartition :=
  match pos with
  | none => pa :: tb
  | some i => tb.take (i + 1) ++ pa :: tb.drop (i + 1)

/-- table_add_freespace from table.c: build the record with new_freespace and
insert it after the best predecessor; when the record has a named parent the
predecessor scan starts right after the real parent and falls back to the real
parent itself when nothing better is found. -/
def table_add_freespace (cxt : FdiskContext) (tb : List FdiskPartition)
    (start end_ : Nat) (parent : Option FdiskPartition) :
    Int × List FdiskPartition :=
  match new_freespace cxt start end_ parent with
  | (rc, none) => if rc ≠ 0 then (-12, tb) else (0, tb)
  | (_, some pa) =>
    let en := tb.enum
    let rp : Option (Nat × FdiskPartition) :=
      match parent with
      | some par =>
        if fdisk_partition_has_partno par then findParentIdx par.partno en
        else none
      | none => none
    let scan := match rp with
      | some (i, _) => en.drop (i + 1)
      | none => en
    let best := bestScan pa.start scan none
    let best' := match best with
      | none => rp
      | some b => some b
    (0, insertAt tb (best'.map (fun p => p.1)) pa)

/-- The loop of check_container_freespace from table.c: walk the sorted real
partitions, synthesize the gaps between consecutive nested (logical)
partitions inside the container.  State: (rc, output table, last). -/
def containerLoop (cxt : FdiskContext) (cont : FdiskPartition) :
    List FdiskPartition → Int × List FdiskPartition × Nat →
    Int × List FdiskPartition × Nat
  | [], s => s
  | pa :: rest, (rc, tb, last) =>
    if ¬pa.used ∨ ¬fdisk_partition_is_nested pa ∨ ¬fdisk_partition_has_start pa
    then containerLoop cxt cont rest (rc, tb, last)
    else
      let lastplusoff := addW last cxt.first_lba
      let st :=
        if pa.start > lastplusoff ∧ subW pa.start lastplusoff > grain_expr cxt
        then table_add_freespace cxt tb lastplusoff pa.start (some cont)
        else (rc, tb)
      if st.1 ≠ 0 then (st.1, st.2, last)
      else containerLoop cxt cont rest (st.1, st.2, fdisk_partition_get_end pa)

/-- check_container_freespace from table.c: gaps between the logical
partitions of a container, plus the tail gap up to the container's end. -/
def check_container_freespace (cxt : FdiskContext)
    (parts tb : List FdiskPartition) (cont : FdiskPartition) :
    Int × List FdiskPartition :=
  let s := containerLoop cxt cont parts (0, tb, fdisk_partition_get_start cont)
  if s.1 ≠ 0 then (s.1, s.2.1)
  else
    let x := subW (addW (fdisk_partition_get_start cont)
                        (fdisk_partition_get_size cont)) 1
    let lastplusoff := addW s.2.2 cxt.first_lba
    if lastplusoff < x ∧ subW x lastplusoff > grain_expr cxt then
      table_add_freespace cxt s.2.1 lastplusoff x (some cont)
    else (0, s.2.1)

/-- The main loop of fdisk_get_freespaces from table.c: walk the sorted real
partitions and synthesize the gap in front of each top-level one.
State: (rc, output table, last, nparts). -/
def freespacesLoop (cxt : FdiskContext) (parts : List FdiskPartition) :
    List FdiskPartition → Int × List FdiskPartition × Nat × Nat →
    Int × List FdiskPartition × Nat × Nat
  | [], s => s
  | pa :: rest, (rc, tb, last, nparts) =>
    if rc ≠ 0 then (rc, tb, last, nparts)
    else if ¬pa.used ∨ pa.wholedisk ∨ fdisk_partition_is_nested pa ∨
            ¬fdisk_partition_has_start pa then
      freespacesLoop cxt parts rest (rc, tb, last, nparts)
    else
      let st₁ :=
        if addW last (grain_expr cxt) < pa.start ∨
           (nparts = 0 ∧ cxt.align_lba_up last < pa.start) then
          table_add_freespace cxt tb
            (addW last (if nparts = 0 then 0 else 1)) (subW pa.start 1) none
        else (rc, tb)
      let st₂ :=
        if fdisk_partition_is_container pa then
          check_container_freespace cxt parts st₁.2 pa
        else st₁
      let last' :=
        if fdisk_partition_has_end pa ∧ fdisk_partition_get_end pa > last
        then fdisk_partition_get_end pa else last
      freespacesLoop cxt parts rest (st₂.1, st₂.2, last', addW nparts 1)

/-- fdisk_get_freespaces from table.c: enumerate the used real partitions,
sort them by start, walk them building gap records, and append the trailing
gap, if any, directly at the table tail.  tb0 is the output table's content on
entry (the caller typically pre-fills it with the real partitions). -/
def fdisk_get_freespaces (cxt : FdiskContext) (tb0 : List FdiskPartition) :
    Int × List FdiskPartition :=
  let parts := list_sort fdisk_partition_cmp_start (fdisk_get_partitions cxt)
  let s := freespacesLoop cxt parts parts (0, tb0, cxt.first_lba, 0)
  let rc := s.1
  let tb := s.2.1
  let last := s.2.2.1
  let nparts := s.2.2.2
  if rc = 0 ∧ addW last (grain_expr cxt) < subW cxt.last_lba 1 then
    match new_freespace cxt
        (addW last (if last > cxt.first_lba ∨ nparts ≠ 0 then 1 else 0))
        cxt.last_lba none with
    | (rc', none) => (rc', tb)
    | (rc', some pa) => (rc', tb ++ [pa])
  else (rc, tb)

/-- The change classification of fdisk_diff_tables. -/
inductive DiffChange where
  | ADDED
  | REMOVED
  | MOVED
  | RESIZED
  | UNCHANGED
deriving DecidableEq

/-- The iterator of fdisk_diff_tables as a tagged cursor: never bound, bound
to table A with a remaining suffix, or bound to table B with a remaining
suffix (in C the tag is the itr->head sentinel pointer). -/
inductive DiffIter where
  | fresh
  | onA (rem : List FdiskPartition)
  | onB (rem : List FdiskPartition)
deriving DecidableEq

/-- The do-while walk of fdisk_diff_tables over table A: advance to the next
numbered partition. -/
def nextNumbered : List FdiskPartition →
    Option (FdiskPartition × List FdiskPartition)
  | [] => none
  | pa :: rest =>
    if fdisk_partition_has_partno pa then some (pa, rest) else nextNumbered rest

/-- The B scan of fdisk_diff_tables: next numbered partition of B whose number
does not exist in A (every number is an addition when A is not supplied). -/
def scanAdded (a? : Option (List FdiskPartition)) :
    List FdiskPartition → Option (FdiskPartition × List FdiskPartition)
  | [] => none
  | pb :: rest =>
    if ¬fdisk_partition_has_partno pb then scanAdded a? rest
    else if (match a? with
             | none => true
             | some a => (fdisk_table_get_partition_by_partno a pb.partno).isNone)
    then some (pb, rest)
    else scanAdded a? rest

/-- The classification tail of fdisk_diff_tables for a numbered partition pa
taken from A: look pa's number up in B and compare start and size. -/
def diffClassify (b? : Option (List FdiskPartition)) (pa : FdiskPartition) :
    DiffChange × FdiskPartition :=
  match b? with
  | none => (DiffChange.REMOVED, pa)
  | some b =>
    match fdisk_table_get_partition_by_partno b pa.partno with
    | none => (DiffChange.REMOVED, pa)
    | some pb =>
      if pb.start ≠ pa.start then (DiffChange.MOVED, pb)
      else if pb.size ≠ pa.size then (DiffChange.RESIZED, pb)
      else (DiffChange.UNCHANGED, pa)

/-- One call of fdisk_diff_tables from table.c: walk A while the iterator is
unbound or bound to A; once A is exhausted rebind to B and emit the B-only
numbers as ADDED; afterwards classify the partition taken from A.  Returns
(rc, emitted change, new iterator): rc = 0 with a change, rc = 1 done. -/
def diffStep (a? b? : Option (List FdiskPartition)) (st : DiffIter) :
    Int × Option (DiffChange × FdiskPartition) × DiffIter :=
  let aRem : Option (List FdiskPartition) :=
    match a?, st with
    | some a, DiffIter.fresh => some a
    | some _, DiffIter.onA rem => some rem
    | _, _ => none
  let s₁ : Int × Option FdiskPartition × DiffIter :=
    match aRem with
    | some rem =>
      match nextNumbered rem with
      | some (pa, rem') => (0, some pa, DiffIter.onA rem')
      | none => (1, none, DiffIter.onA [])
    | none => (1, none, st)
  match s₁ with
  | (0, some pa, st₁) => (0, some (diffClassify b? pa), st₁)
  | (_, _, st₁) =>
    match b? with
    | some b =>
      let brem := match st₁ with
        | DiffIter.onB rem => rem
        | _ => b
      match scanAdded a? brem with
      | some (pb, rest) =>
        (0, some (DiffChange.ADDED, pb), DiffIter.onB rest)
      | none => (1, none, DiffIter.onB [])
    | none => (1, none, st₁)

/-- The change sequence produced by repeated fdisk_diff_tables calls from a
given iterator state, fuel-bounded. -/
def diffRun (a? b? : Option (List FdiskPartition)) (st : DiffIter) :
    Nat → List (DiffChange × FdiskPartition)
  | 0 => []
  | fuel + 1 =>
    match diffStep a? b? st with
    | (0, some c, st') => c :: diffRun a? b? st' fuel
    | _ => []

/-- fdisk_apply_table from table.c: walk the table in order and hand every
record with a known start, or marked to follow the backend's default start,
to the backend's add-partition operation (fdisk_add_partition of the missing
label code, the addPart capability over an abstract backend state); stop at
the first backend error. -/
def fdisk_apply_table {σ : Type} (addPart : σ → FdiskPartition → Int × σ)
    (s : σ) : List FdiskPartition → Int × σ
  | [] => (0, s)
  | pa :: rest =>
    if ¬fdisk_partition_has_start pa ∧ ¬pa.start_follow_default then
      fdisk_apply_table addPart s rest
    else
      let r := addPart s pa
      if r.1 ≠ 0 then r
      else fdisk_apply_table addPart r.2 rest

/-- A table object: the membership sequence (record identifiers) and the
stored entry count nents (a size_t, so kept modulo U64). -/
structure TableObj where
  parts : List Nat
  nents : Nat
deriving DecidableEq

/-- The world of the reference-counted table operations: all live tables and
the per-record reference counters, records named by index. -/
structure World where
  tabs : List TableObj
  rcs : List Nat
deriving DecidableEq

/-- Update the element at an index in place (no-op out of range). -/
def updAt {α : Type} : List α → Nat → (α → α) → List α
  | [], _, _ => []
  | x :: xs, 0, f => f x :: xs
  | x :: xs, t + 1, f => x :: updAt xs t f

/-- list_empty(&pa->parts) negated: the record is linked into the membership
list of some table. -/
def linkedB (w : World) (p : Nat) : Bool :=
  w.tabs.any (fun tb => decide (p ∈ tb.parts))

/-- fdisk_new_table from table.c: append a fresh empty table, returning its
index. -/
def wCreate (w : World) : Nat × World :=
  (w.tabs.length, { w with tabs := w.tabs ++ [⟨[], 0⟩] })

/-- fdisk_new_partition of the missing partition.c: a fresh record with
reference count 1, returning its index. -/
def wNewPart (w : World) : Nat × World :=
  (w.rcs.length, { w with rcs := w.rcs ++ [1] })

/-- fdisk_table_add_partition from table.c: EINVAL on a null argument, EBUSY
when the record is already linked into some table, otherwise acquire a
reference, append at the tail and increment the count. -/
def wAdd (w : World) (t? p? : Option Nat) : Int × World :=
  match t?, p? with
  | none, _ => (-22, w)
  | _, none => (-22, w)
  | some t, some p =>
    if linkedB w p then (-16, w)
    else
      (0, { tabs := updAt w.tabs t
              (fun tb => ⟨tb.parts ++ [p], (tb.nents + 1) % U64⟩),
            rcs := updAt w.rcs p (fun r => r + 1) })

/-- Insert p directly after the first occurrence of q (unchanged when q is
absent: in C the anchor node then lives in a different list, so this table's
sequence is indeed unchanged). -/
def insertAfterElem : List Nat → Nat → Nat → List Nat
  | [], _, _ => []
  | x :: xs, q, p => if x = q then x :: p :: xs else x :: insertAfterElem xs q p

/-- table_insert_partition from table.c: acquire a reference and link p after
the anchor, or at the head when the anchor is null; the count is incremented
unconditionally. -/
def wInsertAfter (w : World) (t : Nat) (poz? : Option Nat) (p : Nat) :
    Int × World :=
  let parts' := fun tb => match poz? with
    | some q => insertAfterElem tb.parts q p
    | none => p :: tb.parts
  (0, { tabs := updAt w.tabs t
          (fun tb => ⟨parts' tb, (tb.nents + 1) % U64⟩),
        rcs := updAt w.rcs p (fun r => r + 1) })

/-- fdisk_table_remove_partition from table.c: EINVAL on a null argument;
otherwise unlink the record from whatever list it is in (list_del), release a
reference and decrement THIS table's count -- membership of the record in the
given table is not verified. -/
def wRemove (w : World) (t? p? : Option Nat) : Int × World :=
  match t?, p? with
  | none, _ => (-22, w)
  | _, none => (-22, w)
  | some t, some p =>
    let tabs₁ := w.tabs.map (fun tb => { tb with parts := tb.parts.erase p })
    let rcs₁ := updAt w.rcs p (fun r => r - 1)
    (0, { tabs := updAt tabs₁ t
            (fun tb => { tb with nents := (tb.nents + (U64 - 1)) % U64 }),
          rcs := rcs₁ })

/-- The while loop of fdisk_reset_table: repeatedly remove the first member,
fuel-bounded by the initial length. -/
def wResetLoop (t : Nat) : Nat → World → World
  | 0, w => w
  | n + 1, w =>
    match (w.tabs.getD t ⟨[], 0⟩).parts with
    | [] => w
    | p :: _ => wResetLoop t n (wRemove w (some t) (some p)).2

/-- fdisk_reset_table from table.c: EINVAL on null, otherwise remove every
member and finally store nents = 0. -/
def wReset (w : World) (t? : Option Nat) : Int × World :=
  match t? with
  | none => (-22, w)
  | some t =>
    let w' := wResetLoop t (w.tabs.getD t ⟨[], 0⟩).parts.length w
    (0, { w' with tabs := updAt w'.tabs t (fun tb => { tb with nents := 0 }) })

/-- fdisk_table_sort_partitions from table.c: EINVAL on null, otherwise a
stable comparator sort of the membership sequence; the count is untouched. -/
def wSort (w : World) (t? : Option Nat) (cmp : Nat → Nat → Int) : Int × World :=
  match t? with
  | none => (-22, w)
  | some t =>
    let f := fun tb : TableObj => { tb with parts := list_sort cmp tb.parts }
    (0, { w with tabs := updAt w.tabs t f })

/-- Worlds reachable by arbitrary sequences of the table operations, with no
constraint on the arguments of remove or insert-after (the reachability the
claim about the count invariant quantifies over). -/
inductive ReachableAny : World → Prop where
  | empty : ReachableAny ⟨[], []⟩
  | create (w : World) : ReachableAny w → ReachableAny (wCreate w).2
  | newPart (w : World) : ReachableAny w → ReachableAny (wNewPart w).2
  | add (w : World) (t? p? : Option Nat) :
      ReachableAny w → ReachableAny (wAdd w t? p?).2
  | insertAfter (w : World) (t : Nat) (poz? : Option Nat) (p : Nat) :
      ReachableAny w → ReachableAny (wInsertAfter w t poz? p).2
  | remove (w : World) (t? p? : Option Nat) :
      ReachableAny w → ReachableAny (wRemove w t? p?).2
  | reset (w : World) (t? : Option Nat) :
      ReachableAny w → ReachableAny (wReset w t?).2
  | sort (w : World) (t? : Option Nat) (cmp : Nat → Nat → Int) :
      ReachableAny w → ReachableAny (wSort w t? cmp).2

/-- Worlds reachable when remove is only invoked with a record that is a
member of the given table, and insert-after only with an unlinked record and
an anchor that is a member (or no anchor) -- the discipline under which the
count invariant does hold. -/
inductive ReachableW : World → Prop where
  | empty : ReachableW ⟨[], []⟩
  | create (w : World) : ReachableW w → ReachableW (wCreate w).2
  | newPart (w : World) : ReachableW w → ReachableW (wNewPart w).2
  | add (w : World) (t? p? : Option Nat) :
      ReachableW w → ReachableW (wAdd w t? p?).2
  | insertAfter (w : World) (t : Nat) (poz? : Option Nat) (p : Nat) :
      ReachableW w → linkedB w p = false →
      (∀ q, poz? = some q → q ∈ (w.tabs.getD t ⟨[], 0⟩).parts) →
      ReachableW (wInsertAfter w t poz? p).2
  | remove (w : World) (t p : Nat) :
      ReachableW w → p ∈ (w.tabs.getD t ⟨[], 0⟩).parts →
      ReachableW (wRemove w (some t) (some p)).2
  | removeNull (w : World) (p? : Option Nat) :
      ReachableW w → ReachableW (wRemove w none p?).2
  | removeNull2 (w : World) (t? : Option Nat) :
      ReachableW w → ReachableW (wRemove w t? none).2
  | reset (w : World) (t? : Option Nat) :
      ReachableW w → ReachableW (wReset w t?).2
  | sort (w : World) (t? : Option Nat) (cmp : Nat → Nat → Int) :
      ReachableW w → ReachableW (wSort w t? cmp).2

/-- Total number of membership occurrences of record p across all tables. -/
def countIn : List TableObj → Nat → Nat
  | [], _ => 0
  | tb :: rest, p => tb.parts.count p + countIn rest p

/-- The well-formedness carried through the invariant proof: every stored
count matches the length of the membership sequence (modulo U64), and no
record is linked more than once in total. -/
def WFw (w : World) : Prop :=
  (∀ tb ∈ w.tabs, tb.nents = tb.parts.length % U64) ∧
  (∀ p, countIn w.tabs p ≤ 1)

/-- Round x up to the next multiple of g: the concrete alignment capability
used by the concrete disk contexts below. -/
def roundUp (g x : Nat) : Nat := ((x + g - 1) / g) * g

/-- First real partition of the free-space scenario: sectors [2048, 204799]. -/
def P1c1 : FdiskPartition :=
  { partno := 0, hasPartno := true, start := 2048, hasStart := true,
    size := 202752, hasSize := true, used := true, wholedisk := false,
    freespace := false, nested := false, container := false,
    parent_partno := none, start_follow_default := false }

/-- Second real partition of the free-space scenario: sectors [206848, 409599]. -/
def P2c1 : FdiskPartition := { P1c1 with partno := 1, start := 206848 }

/-- The disk context of the free-space scenario: 512-byte sectors, byte grain
1 MiB (2048 sectors), usable sectors [2048, 419429], alignment to 2048-sector
boundaries. -/
def cxtC1 : FdiskContext :=
  { sector_size := 512, grain := 1048576, first_lba := 2048,
    last_lba := 419429,
    align_lba_in_range := fun lba _ _ => roundUp 2048 lba,
    align_lba_up := roundUp 2048,
    label_parts := [P1c1, P2c1] }

/-- The synthesized middle gap record: sectors [204800, 206847]. -/
def F1c1 : FdiskPartition :=
  { partno := 0, hasPartno := false, start := 204800, hasStart := true,
    size := 2048, hasSize := true, used := false, wholedisk := false,
    freespace := true, nested := false, container := false,
    parent_partno := none, start_follow_default := false }

/-- The synthesized trailing gap record: sectors [409600, 419429]. -/
def F2c1 : FdiskPartition := { F1c1 with start := 409600, size := 9830 }

/-- A context whose grain in bytes is not a multiple of the sector size:
1536 / 1024 rounds down to 1 in the code. -/
def cxtG : FdiskContext :=
  { sector_size := 1024, grain := 1536, first_lba := 0, last_lba := 0,
    align_lba_in_range := fun lba _ _ => lba,
    align_lba_up := fun lba => lba, label_parts := [] }

/-- A context aligning to 2048-sector boundaries, used to drive the aligned
start of a small gap beyond the gap's end. -/
def cxt5 : FdiskContext :=
  { sector_size := 512, grain := 1048576, first_lba := 2048,
    last_lba := 500000,
    align_lba_in_range := fun lba _ _ => roundUp 2048 lba,
    align_lba_up := roundUp 2048, label_parts := [] }

/-- A context whose alignment lands exactly one past the end of the gap
[5, 10], making the computed size zero. -/
def cxtW1 : FdiskContext :=
  { sector_size := 512, grain := 512, first_lba := 0, last_lba := 100,
    align_lba_in_range := fun _ _ _ => 11,
    align_lba_up := fun lba => lba, label_parts := [] }

/-- First real partition of the one-sector-gap scenario: sectors [0, 100]. -/
def A101 : FdiskPartition :=
  { partno := 0, hasPartno := true, start := 0, hasStart := true,
    size := 101, hasSize := true, used := true, wholedisk := false,
    freespace := false, nested := false, container := false,
    parent_partno := none, start_follow_default := false }

/-- Second real partition of the one-sector-gap scenario: sectors [102, 111],
leaving the single free sector 101 in between. -/
def A102 : FdiskPartition := { A101 with partno := 1, start := 102, size := 10 }

/-- Identity-aligning context with sector grain 1 (byte grain equal to the
sector size) and usable sectors [0, 112]. -/
def cxt10 : FdiskContext :=
  { sector_size := 512, grain := 512, first_lba := 0, last_lba := 112,
    align_lba_in_range := fun lba _ _ => lba,
    align_lba_up := fun lba => lba, label_parts := [A101, A102] }

/-- C1: on a disk with sector grain 2048, usable sectors [2048, 419429] and
real partitions [2048, 204799] and [206848, 409599], fdisk_get_freespaces
synthesizes exactly two free-space records: [204800, 206847] inserted between
the real partitions, and the trailing [409600, 419429] appended at the table
tail; no record is produced in front of the first partition. -/
theorem c1_freespace_synthesis :
    grain_expr cxtC1 = 2048 ∧
    fdisk_get_freespaces cxtC1 [P1c1, P2c1] = (0, [P1c1, F1c1, P2c1, F2c1]) ∧
    ((fdisk_get_freespaces cxtC1 [P1c1, P2c1]).2.filter
        (fun pa => pa.freespace)).map
      (fun pa => (pa.start, pa.start + pa.size - 1)) =
      [(204800, 206847), (409600, 419429)] := by
  refine ⟨by decide, by decide, by decide⟩

/-- C4 counterexample: with byte grain 1536 and sector size 1024 the code
computes sector grain 1536 / 1024 = 1, while the claimed formula
max(1, ceil(1536 / 1024)) gives 2 -- the quotient is truncated, not rounded
up. -/
theorem c4_grain_counterexample :
    grain_expr cxtG = 1 ∧
    max 1 ((cxtG.grain + cxtG.sector_size - 1) / cxtG.sector_size) = 2 ∧
    (1 : Nat) ≠ 2 := by decide

/-- C4 amended: the sector-unit grain used by the synthesizer equals
max(1, floor(grain_bytes / sector_size)) -- rounded down, never below 1. -/
theorem c4_grain_floor (cxt : FdiskContext) (h : 0 < cxt.sector_size) :
    grain_expr cxt = max 1 (cxt.grain / cxt.sector_size) := by
  unfold grain_expr
  rcases lt_or_ge cxt.sector_size cxt.grain with hlt | hle
  · rw [if_pos hlt]
    have h1 : 1 ≤ cxt.grain / cxt.sector_size :=
      (Nat.one_le_div_iff h).mpr (le_of_lt hlt)
    omega
  · rw [if_neg (not_lt.mpr hle)]
    have h1 : cxt.grain / cxt.sector_size ≤ cxt.sector_size / cxt.sector_size :=
      Nat.div_le_div_right hle
    rw [Nat.div_self h] at h1
    omega

/-- Witness for C4 amended at the concrete context cxtG. -/
theorem c4_grain_floor_witness :
    grain_expr cxtG = max 1 (cxtG.grain / cxtG.sector_size) :=
  c4_grain_floor cxtG (by decide)

/-- C5 counterexample: for the gap [2049, 2050] the 2048-alignment puts the
aligned start at 4096, more than one sector past the gap's end; the 64-bit
size wraps to a huge nonzero value and a record IS synthesized, instead of
the claimed silent skip. -/
theorem c5_counterexample :
    cxt5.align_lba_in_range 2049 2049 2050 = 4096 ∧
    2050 + 1 < 4096 ∧
    (new_freespace cxt5 2049 2050 none).2.isSome = true := by decide

/-- C5 amended: the constructor skips (returning success and no record)
exactly when the computed 64-bit size is zero, that is when the aligned start
is one past the gap's end; an aligned start more than one sector beyond the
end wraps around and still synthesizes a record. -/
theorem c5_zero_size_skip :
    (∀ (cxt : FdiskContext) (start end_ : Nat) (par : Option FdiskPartition),
       end_ < U64 →
       cxt.align_lba_in_range start start end_ % U64 = (end_ + 1) % U64 →
       new_freespace cxt start end_ par = (0, none)) ∧
    (∀ (cxt : FdiskContext) (start end_ : Nat) (par : Option FdiskPartition),
       start ≠ end_ →
       end_ + 1 < cxt.align_lba_in_range start start end_ % U64 →
       (new_freespace cxt start end_ par).2.isSome = true) := by
  constructor
  · intro cxt start end_ par hlt hA
    unfold new_freespace
    by_cases hse : start = end_
    · simp [hse]
    · rw [if_neg hse]
      have hz : addW (subW end_ (cxt.align_lba_in_range start start end_ % U64)) 1 = 0 := by
        rw [hA]
        unfold addW subW U64
        unfold U64 at hlt
        omega
      simp [hz]
  · intro cxt start end_ par hse hgt
    unfold new_freespace
    rw [if_neg hse]
    have hAlt : cxt.align_lba_in_range start start end_ % U64 < U64 :=
      Nat.mod_lt _ (by norm_num [U64])
    have hz : addW (subW end_ (cxt.align_lba_in_range start start end_ % U64)) 1 ≠ 0 := by
      generalize cxt.align_lba_in_range start start end_ % U64 = A at hgt hAlt ⊢
      unfold addW subW U64
      unfold U64 at hAlt
      omega
    simp [hz]

/-- Witness for C5 amended: the skip clause at the constant-11 aligner on the
gap [5, 10], and the wrap clause at the 2048-aligner on the gap [2049, 2050]. -/
theorem c5_zero_size_skip_witness :
    new_freespace cxtW1 5 10 none = (0, none) ∧
    (new_freespace cxt5 2049 2050 none).2.isSome = true :=
  ⟨c5_zero_size_skip.1 cxtW1 5 10 none (by decide) (by decide),
   c5_zero_size_skip.2 cxt5 2049 2050 none (by decide) (by decide)⟩

/-- C9: lookup by partition number matches on the stored number field alone;
a record whose has-number flag is unset is still returned when its stored
number matches and no earlier record carries that number. -/
theorem c9_lookup_ignores_flag
    (pre post : List FdiskPartition) (pa : FdiskPartition) (q : Nat)
    (_hflag : pa.hasPartno = false) (hq : pa.partno = q)
    (hpre : ∀ x ∈ pre, x.partno ≠ q) :
    fdisk_table_get_partition_by_partno (pre ++ pa :: post) q = some pa := by
  induction pre with
  | nil =>
    simp [fdisk_table_get_partition_by_partno, List.find?_cons, hq]
  | cons x xs ih =>
    have hx : x.partno ≠ q := hpre x (by simp)
    have ih' := ih (fun y hy => hpre y (by simp [hy]))
    simpa [fdisk_table_get_partition_by_partno, List.find?_cons, hx] using ih'

/-- Witness for C9: an unnumbered record with stored number 5 behind a
numbered record with number 3 is found by a lookup for 5. -/
theorem c9_lookup_ignores_flag_witness :
    fdisk_table_get_partition_by_partno
      [{ P1c1 with partno := 3 }, { P1c1 with partno := 5, hasPartno := false }]
      5 = some { P1c1 with partno := 5, hasPartno := false } :=
  c9_lookup_ignores_flag [{ P1c1 with partno := 3 }] []
    { P1c1 with partno := 5, hasPartno := false } 5
    (by decide) (by decide) (by decide)

/-- C10: a one-sector gap (start = end) never synthesizes a free-space
record -- the constructor returns success with no record for every context,
and concretely a walk with sector grain 1 over partitions [0,100] and
[102,111] leaves the single free sector 101 without any record. -/
theorem c10_one_sector_gap :
    (∀ (cxt : FdiskContext) (start : Nat) (par : Option FdiskPartition),
       new_freespace cxt start start par = (0, none)) ∧
    grain_expr cxt10 = 1 ∧
    fdisk_get_freespaces cxt10 [A101, A102] = (0, [A101, A102]) := by
  refine ⟨fun cxt start par => ?_, by decide, by decide⟩
  unfold new_freespace
  simp

/-- Partition of table A in the diff scenarios: partno 1, start 2048,
size 200000. -/
def Pa1c2 : FdiskPartition :=
  { partno := 1, hasPartno := true, start := 2048, hasStart := true,
    size := 200000, hasSize := true, used := true, wholedisk := false,
    freespace := false, nested := false, container := false,
    parent_partno := none, start_follow_default := false }

/-- B record with the same start but size 300000: the RESIZED case. -/
def Pb1re : FdiskPartition := { Pa1c2 with size := 300000 }

/-- B record with start 4096 and the same size: the MOVED case. -/
def Pb1mv : FdiskPartition := { Pa1c2 with start := 4096 }

/-- Numbered B-only record with partno 5. -/
def Pb5 : FdiskPartition := { Pa1c2 with partno := 5, start := 100, size := 10 }

/-- Unnumbered record sitting between the numbered B entries. -/
def Pb9u : FdiskPartition :=
  { Pa1c2 with partno := 9, hasPartno := false, start := 200, size := 10 }

/-- Numbered B-only record with partno 7. -/
def Pb7 : FdiskPartition := { Pa1c2 with partno := 7, start := 300, size := 10 }

/-- B-only record with partno 2 for the ordering counterexample. -/
def Pb2c3 : FdiskPartition :=
  { Pa1c2 with partno := 2, start := 5000, size := 50 }

/-- C2: while walking table A, fdisk_diff_tables classifies each numbered
partition pa by a number-lookup in B -- missing number REMOVED (result pa),
different start MOVED (result pb), same start different size RESIZED (result
pb), otherwise UNCHANGED (result pa) -- and the four concrete diff runs of
the claim produce exactly the stated single changes, respectively one ADDED
per numbered entry of B when A is empty. -/
theorem c2_diff_classification :
    (∀ (a b rem : List FdiskPartition) (pa : FdiskPartition)
       (rem' : List FdiskPartition),
       nextNumbered rem = some (pa, rem') →
       diffStep (some a) (some b) (DiffIter.onA rem) =
         (0, some (diffClassify (some b) pa), DiffIter.onA rem')) ∧
    diffRun (some [Pa1c2]) (some [Pb1re]) DiffIter.fresh 4 =
      [(DiffChange.RESIZED, Pb1re)] ∧
    diffRun (some [Pa1c2]) (some [Pb1mv]) DiffIter.fresh 4 =
      [(DiffChange.MOVED, Pb1mv)] ∧
    diffRun (some [Pa1c2]) (some []) DiffIter.fresh 4 =
      [(DiffChange.REMOVED, Pa1c2)] ∧
    diffRun (some []) (some [Pb5, Pb9u, Pb7]) DiffIter.fresh 6 =
      [(DiffChange.ADDED, Pb5), (DiffChange.ADDED, Pb7)] := by
  refine ⟨?_, by decide, by decide, by decide, by decide⟩
  intro a b rem pa rem' h
  simp [diffStep, h]

/-- Witness for C2: the classification step applied to the one-element
tables of the RESIZED scenario. -/
theorem c2_diff_classification_witness :
    diffStep (some [Pa1c2]) (some [Pb1re]) (DiffIter.onA [Pa1c2]) =
      (0, some (diffClassify (some [Pb1re]) Pa1c2), DiffIter.onA []) :=
  c2_diff_classification.1 [Pa1c2] [Pb1re] [Pa1c2] Pa1c2 [] (by decide)

/-- C3 counterexample: with A = {partno 1} and B = {partno 2}, the first
emitted change is the A-driven REMOVED and the ADDED for B's partno 2 comes
only after it -- ADDED changes are not emitted before A-driven changes. -/
theorem c3_counterexample :
    (diffRun (some [Pa1c2]) (some [Pb2c3]) DiffIter.fresh 4).map Prod.fst =
      [DiffChange.REMOVED, DiffChange.ADDED] ∧
    DiffChange.REMOVED ≠ DiffChange.ADDED := by decide

/-- The classification of a partition taken from A is never ADDED. -/
theorem diffClassify_ne_added (b? : Option (List FdiskPartition))
    (pa : FdiskPartition) : (diffClassify b? pa).1 ≠ DiffChange.ADDED := by
  unfold diffClassify
  rcases b? with _ | b
  · simp
  · rcases hf : fdisk_table_get_partition_by_partno b pa.partno with _ | pb
    · simp [hf]
    · simp only [hf]
      split_ifs <;> simp

/-- Every change emitted from an iterator already bound to table B is ADDED. -/
theorem diffRun_onB_added :
    ∀ (fuel : Nat) (a? b? : Option (List FdiskPartition))
      (rem : List FdiskPartition) (c : DiffChange × FdiskPartition),
      c ∈ diffRun a? b? (DiffIter.onB rem) fuel → c.1 = DiffChange.ADDED := by
  intro fuel
  induction fuel with
  | zero => intro a? b? rem c hc; simp [diffRun] at hc
  | succ n ih =>
    intro a? b? rem c hc
    rcases a? with _ | a <;> rcases b? with _ | b <;>
      simp only [diffRun, diffStep] at hc
    · simp at hc
    · rcases hsc : scanAdded none rem with _ | ⟨pb, rest⟩ <;>
        simp [hsc] at hc
      rcases hc with hc | hc
      · rw [hc]
      · exact ih none (some b) rest c hc
    · simp at hc
    · rcases hsc : scanAdded (some a) rem with _ | ⟨pb, rest⟩ <;>
        simp [hsc] at hc
      rcases hc with hc | hc
      · rw [hc]
      · exact ih (some a) (some b) rest c hc

/-- From an iterator bound to table A, the run is a block of A-driven
(non-ADDED) changes followed by a block of ADDED changes. -/
theorem diffRun_onA_split :
    ∀ (fuel : Nat) (a b rem : List FdiskPartition),
      ∃ l₁ l₂,
        diffRun (some a) (some b) (DiffIter.onA rem) fuel = l₁ ++ l₂ ∧
        (∀ c ∈ l₁, c.1 ≠ DiffChange.ADDED) ∧
        (∀ c ∈ l₂, c.1 = DiffChange.ADDED) := by
  intro fuel
  induction fuel with
  | zero =>
    intro a b rem
    exact ⟨[], [], by simp [diffRun], by simp, by simp⟩
  | succ n ih =>
    intro a b rem
    rcases hnn : nextNumbered rem with _ | ⟨pa, rem'⟩
    · rcases hsc : scanAdded (some a) b with _ | ⟨pb, rest⟩
      · exact ⟨[], [], by simp [diffRun, diffStep, hnn, hsc], by simp, by simp⟩
      · refine ⟨[], (DiffChange.ADDED, pb) ::
          diffRun (some a) (some b) (DiffIter.onB rest) n, ?_, by simp, ?_⟩
        · simp [diffRun, diffStep, hnn, hsc]
        · intro c hc
          rcases List.mem_cons.mp hc with hc | hc
          · rw [hc]
          · exact diffRun_onB_added n (some a) (some b) rest c hc
    · obtain ⟨l₁, l₂, heq, h₁, h₂⟩ := ih a b rem'
      refine ⟨diffClassify (some b) pa :: l₁, l₂, ?_, ?_, h₂⟩
      · simp [diffRun, diffStep, hnn, heq]
      · intro c hc
        rcases List.mem_cons.mp hc with hc | hc
        · rw [hc]; exact diffClassify_ne_added (some b) pa
        · exact h₁ c hc

/-- A run started on a fresh iterator equals the run started on table A. -/
theorem diffRun_fresh_eq_onA (a b : List FdiskPartition) (fuel : Nat) :
    diffRun (some a) (some b) DiffIter.fresh fuel =
      diffRun (some a) (some b) (DiffIter.onA a) fuel := by
  cases fuel with
  | zero => rfl
  | succ n => rfl

/-- C3 amended: for every pair of non-null tables, the change sequence of
repeated fdisk_diff_tables calls from a fresh iterator consists of all the
A-driven REMOVED/MOVED/RESIZED/UNCHANGED changes first, followed by all the
ADDED changes for B-only partition numbers -- ADDED changes are emitted after
the A-driven changes, not before them. -/
theorem c3_added_changes_last (a b : List FdiskPartition) (fuel : Nat) :
    ∃ l₁ l₂,
      diffRun (some a) (some b) DiffIter.fresh fuel = l₁ ++ l₂ ∧
      (∀ c ∈ l₁, c.1 ≠ DiffChange.ADDED) ∧
      (∀ c ∈ l₂, c.1 = DiffChange.ADDED) := by
  rw [diffRun_fresh_eq_onA]
  exact diffRun_onA_split fuel a b a

/-- C8: against an instrumented backend whose state records the applied
partitions in order and whose per-record status is given by e,
fdisk_apply_table invokes the backend exactly on the records with a known
start or the follow-default mark, stops at the first record whose status is
nonzero, returns that status unchanged (0 when none fails), and the backend
state keeps every record applied before the failing one -- no rollback. -/
theorem c8_apply_first_error (e : FdiskPartition → Int)
    (s tb : List FdiskPartition) :
    fdisk_apply_table
        (fun st pa => (e pa, if e pa = 0 then st ++ [pa] else st)) s tb =
      (((((tb.filter (fun pa => pa.hasStart || pa.start_follow_default)).find?
            (fun pa => !(e pa == 0))).map e).getD 0),
       s ++ (tb.filter
          (fun pa => pa.hasStart || pa.start_follow_default)).takeWhile
            (fun pa => e pa == 0)) := by
  induction tb generalizing s with
  | nil => simp [fdisk_apply_table]
  | cons pa rest ih =>
    by_cases hs : ¬fdisk_partition_has_start pa ∧ ¬pa.start_follow_default
    · have hel : (pa.hasStart || pa.start_follow_default) = false := by
        unfold fdisk_partition_has_start at hs
        simp only [Bool.or_eq_false_iff]
        exact ⟨by simpa using hs.1, by simpa using hs.2⟩
      rw [show fdisk_apply_table
            (fun st pa => (e pa, if e pa = 0 then st ++ [pa] else st)) s
            (pa :: rest) =
          fdisk_apply_table
            (fun st pa => (e pa, if e pa = 0 then st ++ [pa] else st)) s rest
          from by rw [fdisk_apply_table, if_pos hs]]
      rw [ih s]
      simp [List.filter_cons, hel]
    · have hel : (pa.hasStart || pa.start_follow_default) = true := by
        unfold fdisk_partition_has_start at hs
        push_neg at hs
        by_cases h : pa.hasStart = true
        · simp [h]
        · simp [hs h]
      by_cases he : e pa = 0
      · rw [show fdisk_apply_table
              (fun st pa => (e pa, if e pa = 0 then st ++ [pa] else st)) s
              (pa :: rest) =
            fdisk_apply_table
              (fun st pa => (e pa, if e pa = 0 then st ++ [pa] else st))
              (s ++ [pa]) rest
            from by rw [fdisk_apply_table, if_neg hs]; simp [he]]
        rw [ih (s ++ [pa])]
        simp [List.filter_cons, hel, List.takeWhile_cons, he]
      · rw [show fdisk_apply_table
              (fun st pa => (e pa, if e pa = 0 then st ++ [pa] else st)) s
              (pa :: rest) = (e pa, s)
            from by rw [fdisk_apply_table, if_neg hs]; simp [he]]
        simp [List.filter_cons, hel, List.takeWhile_cons, he]

/-- updAt preserves the length. -/
theorem updAt_length {α : Type} (l : List α) (t : Nat) (f : α → α) :
    (updAt l t f).length = l.length := by
  induction l generalizing t with
  | nil => rfl
  | cons x xs ih =>
    cases t with
    | zero => rfl
    | succ n => simp [updAt, ih]

/-- updAt beyond the length is a no-op. -/
theorem updAt_ge {α : Type} (l : List α) (t : Nat) (f : α → α)
    (h : l.length ≤ t) : updAt l t f = l := by
  induction l generalizing t with
  | nil => rfl
  | cons x xs ih =>
    cases t with
    | zero => simp at h
    | succ n => simp [updAt, ih n (by simpa using h)]

/-- A member of the updated list is an old member or the updated entry. -/
theorem mem_updAt {α : Type} (d : α) (l : List α) (t : Nat) (f : α → α)
    (x : α) (hx : x ∈ updAt l t f) :
    x ∈ l ∨ (t < l.length ∧ x = f (l.getD t d)) := by
  induction l generalizing t with
  | nil => simp [updAt] at hx
  | cons y ys ih =>
    cases t with
    | zero =>
      rcases List.mem_cons.mp hx with h | h
      · exact Or.inr ⟨by simp, by simpa using h⟩
      · exact Or.inl (List.mem_cons_of_mem y h)
    | succ n =>
      rcases List.mem_cons.mp hx with h | h
      · exact Or.inl (by simp [h])
      · rcases ih n h with h' | ⟨hlt, heq⟩
        · exact Or.inl (List.mem_cons_of_mem y h')
        · exact Or.inr ⟨by simpa using hlt, heq⟩

/-- getD of the updated position. -/
theorem getD_updAt_self {α : Type} (d : α) (l : List α) (t : Nat) (f : α → α)
    (h : t < l.length) : (updAt l t f).getD t d = f (l.getD t d) := by
  induction l generalizing t with
  | nil => simp at h
  | cons y ys ih =>
    cases t with
    | zero => rfl
    | succ n => simpa [updAt] using ih n (by simpa using h)

/-- getD away from the updated position. -/
theorem getD_updAt_ne {α : Type} (d : α) (l : List α) (t t' : Nat)
    (f : α → α) (h : t' ≠ t) : (updAt l t f).getD t' d = l.getD t' d := by
  induction l generalizing t t' with
  | nil => rfl
  | cons y ys ih =>
    cases t with
    | zero =>
      cases t' with
      | zero => exact absurd rfl h
      | succ m => rfl
    | succ n =>
      cases t' with
      | zero => rfl
      | succ m => simpa [updAt] using ih n m (by omega)

/-- getD of an index in range is a member. -/
theorem mem_getD {α : Type} (d : α) (l : List α) (t : Nat)
    (h : t < l.length) : l.getD t d ∈ l := by
  induction l generalizing t with
  | nil => simp at h
  | cons y ys ih =>
    cases t with
    | zero => simp
    | succ n => exact List.mem_cons_of_mem y (ih n (by simpa using h))

/-- getD of a mapped list at an index in range. -/
theorem getD_map_lt {α β : Type} (d : α) (d' : β) (g : α → β)
    (l : List α) (t : Nat) (h : t < l.length) :
    (l.map g).getD t d' = g (l.getD t d) := by
  induction l generalizing t with
  | nil => simp at h
  | cons y ys ih =>
    cases t with
    | zero => rfl
    | succ n => simpa using ih n (by simpa using h)

/-- countIn over an appended list. -/
theorem countIn_append (l₁ l₂ : List TableObj) (p : Nat) :
    countIn (l₁ ++ l₂) p = countIn l₁ p + countIn l₂ p := by
  induction l₁ with
  | nil => simp [countIn]
  | cons tb rest ih => simp [countIn, ih]; omega

/-- countIn after an update whose per-table membership count never grows by
more than k. -/
theorem countIn_updAt_le (l : List TableObj) (t : Nat) (f : TableObj → TableObj)
    (p k : Nat) (hf : ∀ tb, (f tb).parts.count p ≤ tb.parts.count p + k) :
    countIn (updAt l t f) p ≤ countIn l p + k := by
  induction l generalizing t with
  | nil => simp [updAt, countIn]
  | cons tb rest ih =>
    cases t with
    | zero => have := hf tb; simp [updAt, countIn]; omega
    | succ n => have := ih n; simp [updAt, countIn]; omega

/-- countIn is unchanged by an update that preserves the parts sequence. -/
theorem countIn_updAt_eq (l : List TableObj) (t : Nat) (f : TableObj → TableObj)
    (p : Nat) (hf : ∀ tb, (f tb).parts = tb.parts) :
    countIn (updAt l t f) p = countIn l p := by
  induction l generalizing t with
  | nil => rfl
  | cons tb rest ih =>
    cases t with
    | zero => simp [updAt, countIn, hf tb]
    | succ n => simp [updAt, countIn, ih n]

/-- Erasing a record everywhere never increases the total membership count. -/
theorem countIn_map_erase_le (l : List TableObj) (q p : Nat) :
    countIn (l.map (fun tb => { tb with parts := tb.parts.erase q })) p ≤
      countIn l p := by
  induction l with
  | nil => simp [countIn]
  | cons tb rest ih =>
    have h1 : (tb.parts.erase q).count p ≤ tb.parts.count p :=
      (tb.parts.erase_sublist q).count_le p
    simp only [List.map_cons, countIn]
    omega

/-- A record in no table of the list has total membership count zero. -/
theorem any_mem_false_countIn (l : List TableObj) (p : Nat)
    (h : l.any (fun tb => decide (p ∈ tb.parts)) = false) :
    countIn l p = 0 := by
  induction l with
  | nil => rfl
  | cons tb rest ih =>
    simp only [List.any_cons, Bool.or_eq_false_iff] at h
    have h1 : p ∉ tb.parts := by simpa using h.1
    simp only [countIn, List.count_eq_zero.mpr h1, ih h.2]

/-- An unlinked record has total membership count zero. -/
theorem linkedB_false_countIn (w : World) (p : Nat)
    (h : linkedB w p = false) : countIn w.tabs p = 0 :=
  any_mem_false_countIn w.tabs p h

/-- Zero total membership count means the record is in no table. -/
theorem countIn_zero_not_mem (l : List TableObj) (p : Nat)
    (h : countIn l p = 0) : ∀ tb ∈ l, p ∉ tb.parts := by
  induction l with
  | nil => exact fun x hx => absurd hx (List.not_mem_nil x)
  | cons tb rest ih =>
    simp only [countIn] at h
    intro x hx
    rcases List.mem_cons.mp hx with hx | hx
    · subst hx; exact List.count_eq_zero.mp (by omega)
    · exact ih (by omega) x hx

/-- Membership of p in the table at index t gives a positive total count and
shows the index is in range. -/
theorem countIn_pos_of_mem_getD (l : List TableObj) (t p : Nat)
    (h : p ∈ (l.getD t ⟨[], 0⟩).parts) :
    1 ≤ countIn l p ∧ t < l.length := by
  induction l generalizing t with
  | nil => simp [List.getD] at h
  | cons tb rest ih =>
    cases t with
    | zero =>
      refine ⟨?_, by simp⟩
      have := List.count_pos_iff.mpr (by simpa using h)
      simp only [countIn]; omega
    | succ n =>
      obtain ⟨h1, h2⟩ := ih n (by simpa using h)
      exact ⟨by simp only [countIn]; omega, by simpa using h2⟩

/-- Inserting into a sorted list grows the length by one. -/
theorem length_insertSorted {α : Type} (cmp : α → α → Int) (x : α)
    (l : List α) : (insertSorted cmp x l).length = l.length + 1 := by
  induction l with
  | nil => rfl
  | cons y ys ih =>
    unfold insertSorted
    by_cases h : cmp x y ≤ 0 <;> simp [h, ih]

/-- The stable sort preserves the length. -/
theorem length_list_sort {α : Type} (cmp : α → α → Int) (l : List α) :
    (list_sort cmp l).length = l.length := by
  induction l with
  | nil => rfl
  | cons x xs ih => simp [list_sort, length_insertSorted, ih]

/-- Inserting into a sorted list adds one occurrence of the element. -/
theorem count_insertSorted (cmp : Nat → Nat → Int) (x q : Nat)
    (l : List Nat) :
    (insertSorted cmp x l).count q = (x :: l).count q := by
  induction l with
  | nil => rfl
  | cons y ys ih =>
    unfold insertSorted
    by_cases h : cmp x y ≤ 0
    · simp [h]
    · simp only [if_neg h, List.count_cons, ih]
      omega

/-- The stable sort preserves occurrence counts. -/
theorem count_list_sort (cmp : Nat → Nat → Int) (q : Nat) (l : List Nat) :
    (list_sort cmp l).count q = l.count q := by
  induction l with
  | nil => rfl
  | cons x xs ih =>
    simp only [list_sort, count_insertSorted, List.count_cons, ih]

/-- Inserting after a present anchor grows the length by one. -/
theorem length_insertAfterElem_mem (l : List Nat) (q p : Nat) (h : q ∈ l) :
    (insertAfterElem l q p).length = l.length + 1 := by
  induction l with
  | nil => simp at h
  | cons x xs ih =>
    unfold insertAfterElem
    by_cases hx : x = q
    · simp [hx]
    · have : q ∈ xs := by
        rcases List.mem_cons.mp h with h' | h'
        · exact absurd h'.symm hx
        · exact h'
      simp [hx, ih this]

/-- Inserting p adds at most one occurrence of p and none of anything else. -/
theorem count_insertAfterElem_le (l : List Nat) (q p r : Nat) :
    (insertAfterElem l q p).count r ≤
      l.count r + (if p = r then 1 else 0) := by
  induction l with
  | nil => simp [insertAfterElem]
  | cons x xs ih =>
    unfold insertAfterElem
    by_cases hx : x = q
    · simp only [if_pos hx, List.count_cons]
      by_cases hp : p = r <;> simp [hp] <;> omega
    · simp only [if_neg hx, List.count_cons]
      omega

/-- Creating a table preserves well-formedness. -/
theorem wf_create (w : World) (h : WFw w) : WFw (wCreate w).2 := by
  obtain ⟨hn, hc⟩ := h
  constructor
  · intro tb htb
    rcases List.mem_append.mp htb with htb | htb
    · exact hn tb htb
    · simp only [List.mem_singleton] at htb
      subst htb
      simp
  · intro p
    rw [show (wCreate w).2.tabs = w.tabs ++ [⟨[], 0⟩] from rfl,
        countIn_append]
    simpa [countIn] using hc p

/-- Creating a record preserves well-formedness. -/
theorem wf_newPart (w : World) (h : WFw w) : WFw (wNewPart w).2 := h

/-- Adding a record preserves well-formedness. -/
theorem wf_add (w : World) (t? p? : Option Nat) (h : WFw w) :
    WFw (wAdd w t? p?).2 := by
  obtain ⟨hn, hc⟩ := h
  rcases t? with _ | t
  · rcases p? with _ | p <;> exact ⟨hn, hc⟩
  rcases p? with _ | p
  · exact ⟨hn, hc⟩
  by_cases hl : linkedB w p
  · simp only [wAdd, if_pos hl]
    exact ⟨hn, hc⟩
  · have h0 : countIn w.tabs p = 0 :=
      linkedB_false_countIn w p (by simpa using hl)
    simp only [wAdd, if_neg hl]
    constructor
    · intro tb htb
      rcases mem_updAt ⟨[], 0⟩ _ _ _ tb htb with htb | ⟨hlt, heq⟩
      · exact hn tb htb
      · subst heq
        have := hn _ (mem_getD ⟨[], 0⟩ w.tabs t hlt)
        simp only [List.length_append, List.length_singleton]
        rw [this, Nat.add_mod (w.tabs.getD t ⟨[], 0⟩).parts.length 1 U64]
        simp [Nat.mod_mod_of_dvd]
    · intro q
      show countIn (updAt w.tabs t
        (fun tb => ⟨tb.parts ++ [p], (tb.nents + 1) % U64⟩)) q ≤ 1
      have hb := countIn_updAt_le w.tabs t
        (fun tb => ⟨tb.parts ++ [p], (tb.nents + 1) % U64⟩) q
        (if p = q then 1 else 0)
        (fun tb => by
          by_cases hpq : p = q <;>
            simp [List.count_append, List.count_cons, hpq])
      by_cases hq : p = q
      · rw [if_pos hq] at hb
        rw [← hq] at hb
        rw [← hq]
        omega
      · rw [if_neg hq] at hb
        have := hc q
        omega

/-- Inserting an unlinked record after a member anchor preserves
well-formedness. -/
theorem wf_insertAfter (w : World) (t : Nat) (poz? : Option Nat) (p : Nat)
    (h : WFw w) (hl : linkedB w p = false)
    (hanchor : ∀ q, poz? = some q → q ∈ (w.tabs.getD t ⟨[], 0⟩).parts) :
    WFw (wInsertAfter w t poz? p).2 := by
  obtain ⟨hn, hc⟩ := h
  have h0 : countIn w.tabs p = 0 := linkedB_false_countIn w p hl
  rcases poz? with _ | anchor
  · constructor
    · intro tb htb
      simp only [wInsertAfter] at htb
      rcases mem_updAt ⟨[], 0⟩ _ _ _ tb htb with htb | ⟨hlt, heq⟩
      · exact hn tb htb
      · subst heq
        have := hn _ (mem_getD ⟨[], 0⟩ w.tabs t hlt)
        simp only [List.length_cons]
        rw [this, Nat.add_mod (w.tabs.getD t ⟨[], 0⟩).parts.length 1 U64]
        simp [Nat.mod_mod_of_dvd]
    · intro q
      show countIn (updAt w.tabs t
        (fun tb => ⟨p :: tb.parts, (tb.nents + 1) % U64⟩)) q ≤ 1
      have hb := countIn_updAt_le w.tabs t
        (fun tb => ⟨p :: tb.parts, (tb.nents + 1) % U64⟩) q
        (if p = q then 1 else 0)
        (fun tb => by
          by_cases hpq : p = q <;> simp [List.count_cons, hpq])
      by_cases hq : p = q
      · rw [if_pos hq] at hb
        rw [← hq] at hb ⊢
        omega
      · rw [if_neg hq] at hb
        have := hc q
        omega
  · constructor
    · intro tb htb
      simp only [wInsertAfter] at htb
      rcases mem_updAt ⟨[], 0⟩ _ _ _ tb htb with htb | ⟨hlt, heq⟩
      · exact hn tb htb
      · subst heq
        have hmain := hn _ (mem_getD ⟨[], 0⟩ w.tabs t hlt)
        have hq : anchor ∈ (w.tabs.getD t ⟨[], 0⟩).parts := hanchor anchor rfl
        simp only [length_insertAfterElem_mem _ _ _ hq]
        rw [hmain, Nat.add_mod (w.tabs.getD t ⟨[], 0⟩).parts.length 1 U64]
        simp [Nat.mod_mod_of_dvd]
    · intro q
      show countIn (updAt w.tabs t
        (fun tb => ⟨insertAfterElem tb.parts anchor p,
                    (tb.nents + 1) % U64⟩)) q ≤ 1
      have hb := countIn_updAt_le w.tabs t
        (fun tb => ⟨insertAfterElem tb.parts anchor p, (tb.nents + 1) % U64⟩) q
        (if p = q then 1 else 0)
        (fun tb => count_insertAfterElem_le tb.parts anchor p q)
      by_cases hq : p = q
      · rw [if_pos hq] at hb
        rw [← hq] at hb ⊢
        omega
      · rw [if_neg hq] at hb
        have := hc q
        omega

/-- Sorting a table preserves well-formedness. -/
theorem wf_sort (w : World) (t? : Option Nat) (cmp : Nat → Nat → Int)
    (h : WFw w) : WFw (wSort w t? cmp).2 := by
  obtain ⟨hn, hc⟩ := h
  rcases t? with _ | t
  · exact ⟨hn, hc⟩
  constructor
  · intro tb htb
    simp only [wSort] at htb
    rcases mem_updAt ⟨[], 0⟩ _ _ _ tb htb with htb | ⟨hlt, heq⟩
    · exact hn tb htb
    · subst heq
      have := hn _ (mem_getD ⟨[], 0⟩ w.tabs t hlt)
      simpa [length_list_sort] using this
  · intro q
    show countIn (updAt w.tabs t
      (fun tb => { tb with parts := list_sort cmp tb.parts })) q ≤ 1
    have hb := countIn_updAt_le w.tabs t
      (fun tb => { tb with parts := list_sort cmp tb.parts }) q 0
      (fun tb => by simp [count_list_sort])
    have := hc q
    omega

/-- The erase-everywhere step composed with the count decrement at the
removing table preserves the per-table count/length match, provided the record
is a member of the table it is removed from. -/
theorem wf_remove_core :
    ∀ (tabs : List TableObj) (t p : Nat),
      (∀ tb ∈ tabs, tb.nents = tb.parts.length % U64) →
      countIn tabs p ≤ 1 →
      p ∈ (tabs.getD t ⟨[], 0⟩).parts →
      ∀ tb ∈ updAt (tabs.map (fun tb => { tb with parts := tb.parts.erase p })) t
          (fun tb => { tb with nents := (tb.nents + (U64 - 1)) % U64 }),
        tb.nents = tb.parts.length % U64 := by
  intro tabs
  induction tabs with
  | nil => intro t p _ _ hmem; simp [List.getD] at hmem
  | cons hd tl ih =>
    intro t p hn hc hmem
    cases t with
    | zero =>
      simp only [List.getD_cons_zero] at hmem
      have hcnt : 0 < hd.parts.count p := List.count_pos_iff.mpr hmem
      have htl0 : countIn tl p = 0 := by
        simp only [countIn] at hc; omega
      intro tb htb
      simp only [List.map_cons, updAt] at htb
      rcases List.mem_cons.mp htb with htb | htb
      · subst htb
        have hhd := hn hd (by simp)
        have hlen : (hd.parts.erase p).length = hd.parts.length - 1 :=
          List.length_erase_of_mem hmem
        have hge : 1 ≤ hd.parts.length := by
          have := List.length_pos_of_mem hmem; omega
        simp only [hlen, hhd]
        have hU : U64 = 18446744073709551616 := by norm_num [U64]
        rw [hU]
        omega
      · obtain ⟨y, hy, hyeq⟩ := List.mem_map.mp htb
        have : p ∉ y.parts := countIn_zero_not_mem tl p htl0 y hy
        rw [List.erase_of_not_mem this] at hyeq
        subst hyeq
        exact hn y (List.mem_cons_of_mem hd hy)
    | succ n =>
      simp only [List.getD_cons_succ] at hmem
      have hpos := countIn_pos_of_mem_getD tl n p hmem
      have hhd0 : hd.parts.count p = 0 := by
        simp only [countIn] at hc; omega
      intro tb htb
      simp only [List.map_cons, updAt] at htb
      rcases List.mem_cons.mp htb with htb | htb
      · subst htb
        rw [List.erase_of_not_mem (List.count_eq_zero.mp hhd0)]
        exact hn hd (by simp)
      · exact ih n p (fun y hy => hn y (List.mem_cons_of_mem hd hy))
          (by simp only [countIn] at hc; omega) hmem tb htb

/-- Removing a member record preserves well-formedness. -/
theorem wf_remove (w : World) (t p : Nat) (h : WFw w)
    (hmem : p ∈ (w.tabs.getD t ⟨[], 0⟩).parts) :
    WFw (wRemove w (some t) (some p)).2 := by
  obtain ⟨hn, hc⟩ := h
  constructor
  · exact wf_remove_core w.tabs t p hn (hc p) hmem
  · intro q
    show countIn (updAt
      (w.tabs.map (fun tb => { tb with parts := tb.parts.erase p })) t
      (fun tb => { tb with nents := (tb.nents + (U64 - 1)) % U64 })) q ≤ 1
    have h1 := countIn_updAt_eq
      (w.tabs.map (fun tb => { tb with parts := tb.parts.erase p })) t
      (fun tb => { tb with nents := (tb.nents + (U64 - 1)) % U64 }) q
      (fun tb => rfl)
    have h2 := countIn_map_erase_le w.tabs p q
    have := hc q
    omega

/-- Removing with a null argument leaves the world unchanged. -/
theorem wRemove_null (w : World) :
    (∀ p?, (wRemove w none p?).2 = w) ∧
    (∀ t?, (wRemove w t? none).2 = w) := by
  constructor
  · intro p?; rcases p? with _ | p <;> rfl
  · intro t?; rcases t? with _ | t <;> rfl

/-- The reset loop preserves well-formedness. -/
theorem resetLoop_wf (t : Nat) :
    ∀ (n : Nat) (w : World), WFw w → WFw (wResetLoop t n w) := by
  intro n
  induction n with
  | zero => intro w hw; exact hw
  | succ m ih =>
    intro w hw
    unfold wResetLoop
    rcases hps : (w.tabs.getD t ⟨[], 0⟩).parts with _ | ⟨p, rest⟩
    · exact hw
    · exact ih _ (wf_remove w t p hw (by rw [hps]; simp))

/-- The reset loop run for the full length empties the table's membership
sequence. -/
theorem resetLoop_empties (t : Nat) :
    ∀ (n : Nat) (w : World),
      t < w.tabs.length →
      (w.tabs.getD t ⟨[], 0⟩).parts.length = n →
      ((wResetLoop t n w).tabs.getD t ⟨[], 0⟩).parts = [] ∧
      t < (wResetLoop t n w).tabs.length := by
  intro n
  induction n with
  | zero =>
    intro w hlt hlen
    exact ⟨List.length_eq_zero.mp hlen, hlt⟩
  | succ m ih =>
    intro w hlt hlen
    unfold wResetLoop
    rcases hps : (w.tabs.getD t ⟨[], 0⟩).parts with _ | ⟨p, rest⟩
    · rw [hps] at hlen; simp at hlen
    · have hlt' : t < ((wRemove w (some t) (some p)).2).tabs.length := by
        show t < (updAt (w.tabs.map
          (fun tb : TableObj => { tb with parts := tb.parts.erase p })) t
          (fun tb : TableObj =>
            { tb with nents := (tb.nents + (U64 - 1)) % U64 })).length
        rw [updAt_length, List.length_map]
        exact hlt
      have hget : (((wRemove w (some t) (some p)).2).tabs.getD t
          ⟨[], 0⟩).parts = rest := by
        show ((updAt (w.tabs.map
          (fun tb : TableObj => { tb with parts := tb.parts.erase p })) t
          (fun tb : TableObj =>
            { tb with nents := (tb.nents + (U64 - 1)) % U64 })).getD t
          ⟨[], 0⟩).parts = rest
        rw [getD_updAt_self ⟨[], 0⟩
          (w.tabs.map (fun tb : TableObj => { tb with parts := tb.parts.erase p }))
          t
          (fun tb : TableObj =>
            { tb with nents := (tb.nents + (U64 - 1)) % U64 })
          (by rw [List.length_map]; exact hlt)]
        show ((w.tabs.map
          (fun tb : TableObj =>
            { tb with parts := tb.parts.erase p })).getD t ⟨[], 0⟩).parts = rest
        have hmap := getD_map_lt (⟨[], 0⟩ : TableObj) (⟨[], 0⟩ : TableObj)
          (fun tb : TableObj => { tb with parts := tb.parts.erase p })
          w.tabs t hlt
        rw [hmap]
        simp only [hps, List.erase_cons_head]
      have hlen' : (((wRemove w (some t) (some p)).2).tabs.getD t
          ⟨[], 0⟩).parts.length = m := by
        rw [hget]
        rw [hps] at hlen
        simpa using hlen
      exact ih _ hlt' hlen'

/-- Resetting a table preserves well-formedness. -/
theorem wf_reset (w : World) (t? : Option Nat) (h : WFw w) :
    WFw (wReset w t?).2 := by
  rcases t? with _ | t
  · exact h
  by_cases hlt : t < w.tabs.length
  · have hloop := resetLoop_wf t ((w.tabs.getD t ⟨[], 0⟩).parts.length) w h
    obtain ⟨hempty, hlt'⟩ := resetLoop_empties t
      ((w.tabs.getD t ⟨[], 0⟩).parts.length) w hlt rfl
    obtain ⟨hn, hc⟩ := hloop
    constructor
    · intro tb htb
      simp only [wReset] at htb
      rcases mem_updAt ⟨[], 0⟩ _ _ _ tb htb with htb | ⟨_, heq⟩
      · exact hn tb htb
      · subst heq
        simp only [hempty]
        simp
    · intro q
      show countIn (updAt
        (wResetLoop t ((w.tabs.getD t ⟨[], 0⟩).parts.length) w).tabs t
        (fun tb => { tb with nents := 0 })) q ≤ 1
      have h1 := countIn_updAt_eq
        (wResetLoop t ((w.tabs.getD t ⟨[], 0⟩).parts.length) w).tabs t
        (fun tb => { tb with nents := 0 }) q (fun tb => rfl)
      have := hc q
      omega
  · have hd : (w.tabs.getD t ⟨[], 0⟩) = ⟨[], 0⟩ :=
      List.getD_eq_default _ _ (by omega)
    have hlen0 : (w.tabs.getD t ⟨[], 0⟩).parts.length = 0 := by rw [hd]; rfl
    obtain ⟨hn, hc⟩ := h
    constructor
    · intro tb htb
      simp only [wReset, hlen0, wResetLoop] at htb
      rw [updAt_ge _ _ _ (by omega)] at htb
      exact hn tb htb
    · intro q
      simp only [wReset, hlen0, wResetLoop]
      rw [updAt_ge _ _ _ (by omega)]
      exact hc q

/-- Every world reachable under the membership discipline is well-formed. -/
theorem wf_reachable (w : World) (h : ReachableW w) : WFw w := by
  induction h with
  | empty =>
    constructor
    · intro tb htb; simp at htb
    · intro p; simp [countIn]
  | create w' _ ih => exact wf_create w' ih
  | newPart w' _ ih => exact wf_newPart w' ih
  | add w' t? p? _ ih => exact wf_add w' t? p? ih
  | insertAfter w' t poz? p _ hl hanchor ih =>
    exact wf_insertAfter w' t poz? p ih hl hanchor
  | remove w' t p _ hmem ih => exact wf_remove w' t p ih hmem
  | removeNull w' p? _ ih => rw [(wRemove_null w').1 p?]; exact ih
  | removeNull2 w' t? _ ih => rw [(wRemove_null w').2 t?]; exact ih
  | reset w' t? _ ih => exact wf_reset w' t? ih
  | sort w' t? cmp _ ih => exact wf_sort w' t? cmp ih

/-- C6 counterexample: create two tables, add record 0 to table 0, then call
remove with table 1 and record 0 (a record that is not a member of table 1).
The record is unlinked from table 0 whose stored count stays 1 over an empty
membership list, and table 1's count underflows to 2^64 - 1 -- the count
invariant is broken by a remove with a non-member, although the world was
reached purely by table operations. -/
theorem c6_counterexample :
    ReachableAny
      (wRemove (wAdd (wNewPart (wCreate (wCreate ⟨[], []⟩).2).2).2
        (some 0) (some 0)).2 (some 1) (some 0)).2 ∧
    ((wRemove (wAdd (wNewPart (wCreate (wCreate ⟨[], []⟩).2).2).2
        (some 0) (some 0)).2 (some 1) (some 0)).2.tabs.getD 0
      ⟨[], 0⟩).nents = 1 ∧
    ((wRemove (wAdd (wNewPart (wCreate (wCreate ⟨[], []⟩).2).2).2
        (some 0) (some 0)).2 (some 1) (some 0)).2.tabs.getD 0
      ⟨[], 0⟩).parts.length = 0 ∧
    (1 : Nat) ≠ 0 % U64 := by
  refine ⟨?_, by decide, by decide, by decide⟩
  exact ReachableAny.remove _ (some 1) (some 0)
    (ReachableAny.add _ (some 0) (some 0)
      (ReachableAny.newPart _
        (ReachableAny.create _
          (ReachableAny.create _ ReachableAny.empty))))

/-- C6 amended: for every world reachable when remove is only called with a
member of the given table and insert-after only with an unlinked record and a
member anchor, every table's stored entry count equals the length of its
membership sequence (modulo 2^64, the width of the size_t counter). -/
theorem c6_count_invariant (w : World) (h : ReachableW w) :
    ∀ tb ∈ w.tabs, tb.nents = tb.parts.length % U64 :=
  (wf_reachable w h).1

/-- Witness for C6 amended: the invariant holds at the world built by create;
new record; add. -/
theorem c6_count_invariant_witness :
    ((wAdd (wNewPart (wCreate ⟨[], []⟩).2).2 (some 0) (some 0)).2.tabs.getD 0
      ⟨[], 0⟩).nents =
      ((wAdd (wNewPart (wCreate ⟨[], []⟩).2).2 (some 0)
        (some 0)).2.tabs.getD 0 ⟨[], 0⟩).parts.length % U64 :=
  c6_count_invariant _
    (ReachableW.add _ (some 0) (some 0)
      (ReachableW.newPart _ (ReachableW.create _ ReachableW.empty)))
    _ (by decide)

/-- C7: add fails with EINVAL on a null table or record leaving the world
unchanged; fails with EBUSY when the record is already linked into some
table, leaving every table and every reference count unchanged; and
otherwise succeeds, appending the record at the tail of the target table,
incrementing that table's count by one (as the 64-bit counter does) and
acquiring one reference, touching no other table and no other counter. -/
theorem c7_add_semantics :
    (∀ (w : World) (p? : Option Nat), wAdd w none p? = (-22, w)) ∧
    (∀ (w : World) (t : Nat), wAdd w (some t) none = (-22, w)) ∧
    (∀ (w : World) (t p : Nat), linkedB w p = true →
       wAdd w (some t) (some p) = (-16, w)) ∧
    (∀ (w : World) (t p : Nat), linkedB w p = false →
       t < w.tabs.length → p < w.rcs.length →
       (wAdd w (some t) (some p)).1 = 0 ∧
       ((wAdd w (some t) (some p)).2.tabs.getD t ⟨[], 0⟩).parts =
         (w.tabs.getD t ⟨[], 0⟩).parts ++ [p] ∧
       ((wAdd w (some t) (some p)).2.tabs.getD t ⟨[], 0⟩).nents =
         ((w.tabs.getD t ⟨[], 0⟩).nents + 1) % U64 ∧
       (wAdd w (some t) (some p)).2.rcs.getD p 0 =
         w.rcs.getD p 0 + 1 ∧
       (∀ t', t' ≠ t →
         (wAdd w (some t) (some p)).2.tabs.getD t' ⟨[], 0⟩ =
           w.tabs.getD t' ⟨[], 0⟩) ∧
       (∀ p', p' ≠ p →
         (wAdd w (some t) (some p)).2.rcs.getD p' 0 =
           w.rcs.getD p' 0)) := by
  refine ⟨?_, ?_, ?_, ?_⟩
  · intro w p?; rcases p? with _ | p <;> rfl
  · intro w t; rfl
  · intro w t p hl
    simp only [wAdd, hl]
    rfl
  · intro w t p hl hlt hp
    have hfalse : ¬linkedB w p = true := by simp [hl]
    have hw : (wAdd w (some t) (some p)).2 =
        ⟨updAt w.tabs t (fun tb => ⟨tb.parts ++ [p], (tb.nents + 1) % U64⟩),
         updAt w.rcs p (fun r => r + 1)⟩ := by
      simp only [wAdd, if_neg hfalse]
    refine ⟨by simp only [wAdd, if_neg hfalse], ?_, ?_, ?_, ?_, ?_⟩
    · rw [hw]
      show ((updAt w.tabs t
        (fun tb => ⟨tb.parts ++ [p], (tb.nents + 1) % U64⟩)).getD t
          ⟨[], 0⟩).parts = (w.tabs.getD t ⟨[], 0⟩).parts ++ [p]
      rw [getD_updAt_self ⟨[], 0⟩ w.tabs t _ hlt]
    · rw [hw]
      show ((updAt w.tabs t
        (fun tb => ⟨tb.parts ++ [p], (tb.nents + 1) % U64⟩)).getD t
          ⟨[], 0⟩).nents = ((w.tabs.getD t ⟨[], 0⟩).nents + 1) % U64
      rw [getD_updAt_self ⟨[], 0⟩ w.tabs t _ hlt]
    · rw [hw]
      show (updAt w.rcs p (fun r => r + 1)).getD p 0 = w.rcs.getD p 0 + 1
      rw [getD_updAt_self 0 w.rcs p _ hp]
    · intro t' ht'
      rw [hw]
      show (updAt w.tabs t
        (fun tb => ⟨tb.parts ++ [p], (tb.nents + 1) % U64⟩)).getD t'
          ⟨[], 0⟩ = w.tabs.getD t' ⟨[], 0⟩
      exact getD_updAt_ne ⟨[], 0⟩ w.tabs t t' _ ht'
    · intro p' hp'
      rw [hw]
      show (updAt w.rcs p (fun r => r + 1)).getD p' 0 = w.rcs.getD p' 0
      exact getD_updAt_ne 0 w.rcs p p' _ hp'

/-- Witness for C7: the busy and the success clauses at a concrete world of
two tables and two records, record 0 linked into table 0. -/
theorem c7_add_semantics_witness :
    wAdd ⟨[⟨[0], 1⟩, ⟨[], 0⟩], [2, 1]⟩ (some 1) (some 0) =
      (-16, ⟨[⟨[0], 1⟩, ⟨[], 0⟩], [2, 1]⟩) ∧
    (wAdd ⟨[⟨[0], 1⟩, ⟨[], 0⟩], [2, 1]⟩ (some 1) (some 1)).1 = 0 ∧
    (wAdd ⟨[⟨[0], 1⟩, ⟨[], 0⟩], [2, 1]⟩ (some 1) (some 1)).2.rcs.getD 1 0 =
      (⟨[⟨[0], 1⟩, ⟨[], 0⟩], [2, 1]⟩ : World).rcs.getD 1 0 + 1 :=
  ⟨c7_add_semantics.2.2.1 ⟨[⟨[0], 1⟩, ⟨[], 0⟩], [2, 1]⟩ 1 0 (by decide),
   (c7_add_semantics.2.2.2 ⟨[⟨[0], 1⟩, ⟨[], 0⟩], [2, 1]⟩ 1 1 (by decide)
     (by decide) (by decide)).1,
   (c7_add_semantics.2.2.2 ⟨[⟨[0], 1⟩, ⟨[], 0⟩], [2, 1]⟩ 1 1 (by decide)
     (by decide) (by decide)).2.2.2.1⟩
